import Mathlib

/-!
Verification of the stateright model checker core (`src/checker.rs`) against
its specification.  The checker, worker, path-reconstruction and
worker-adjustment routines are embedded shallowly: the `FxHashMap<u64,
Option<u64>>` predecessor map becomes an association list with
insert-if-vacant, the `VecDeque` frontier becomes a FIFO list, the `usize`
budget becomes a `Nat` with its wrap-around at zero made explicit, and the
two loops whose termination is not structural (`path_to`'s digest walk and
`adjust_worker_count`) take an explicit fuel and return `Option`, with
`none` standing for divergence.  Panics (`unwrap`/`expect`) are modelled as
`Option.none` results.
-/

namespace Stateright

variable {State Action : Type}

/-- Result of one bounded checking pass (`CheckResult` in checker.rs). -/
inductive CheckResult (State : Type) where
  | Incomplete
  | Pass
  | Fail (state : State)
deriving DecidableEq

/-- The state-machine contract the checker consumes (`StateMachine` trait:
`init_states`, `actions`, `next_state`). -/
structure SM (State Action : Type) where
  init_states : List State
  actions : State → List Action
  next_state : State → Action → Option State

/-- The fingerprint → optional predecessor-fingerprint map
(`FxHashMap<u64, Option<u64>>`), embedded as an association list; all code
below inserts only after a vacancy check, so keys stay distinct. -/
abbrev Sources : Type := List (Nat × Option Nat)

/-- `HashMap::get`: the first entry with the given key, if any. -/
def alookup : Sources → Nat → Option (Option Nat)
  | [], _ => none
  | (k, v) :: rest, d => if k = d then some v else alookup rest d

/-- The key list of a sources map. -/
def mapKeys (m : Sources) : List Nat := m.map Prod.fst

/-- A worker (checker.rs `Worker`): invariant, state machine, FIFO frontier
`pending`, and predecessor map `sources`.  The fingerprint function is
passed separately to every operation (in the source it is the free function
`fingerprint`). -/
structure Worker (State Action : Type) where
  invariant : SM State Action → State → Bool
  machine : SM State Action
  pending : List State
  sources : Sources

/-- The body of the seeding loop in `Worker::init`: an initial state is
pushed and recorded with predecessor `None` iff its fingerprint is vacant
(`Entry::Vacant`). -/
def seedBody (fp : State → Nat) (acc : List State × Sources) (s : State) :
    List State × Sources :=
  let d := fp s
  if (alookup acc.2 d).isSome then acc
  else (acc.1 ++ [s], acc.2 ++ [(d, none)])

/-- `Worker::init`: seed `sources` with `fingerprint(init_state) → None`
and `pending` with the initial states, skipping any initial state whose
fingerprint is already present. -/
def Worker.init (fp : State → Nat) (sm : SM State Action)
    (inv : SM State Action → State → Bool) : Worker State Action :=
  let seeded := sm.init_states.foldl (seedBody fp) ([], [])
  ⟨inv, sm, seeded.1, seeded.2⟩

/-- The body of the expansion loop of `Worker::check` for one popped state
`s` and one action: if `next_state` yields a state whose fingerprint is
vacant in `sources`, record `fingerprint(next) → Some(fingerprint(s))` and
push the state onto the back of the frontier. -/
def expandBody (fp : State → Nat) (sm : SM State Action) (s : State)
    (acc : List State × Sources) (a : Action) : List State × Sources :=
  match sm.next_state s a with
  | none => acc
  | some t =>
    let d := fp t
    if (alookup acc.2 d).isSome then acc
    else (acc.1 ++ [t], acc.2 ++ [(d, some (fp s))])

/-- The expansion step of `Worker::check` for one popped state `s`: fold
the expansion body over the actions enabled in `s`. -/
def expandStep (fp : State → Nat) (sm : SM State Action) (s : State)
    (pending : List State) (sources : Sources) : List State × Sources :=
  (sm.actions s).foldl (expandBody fp sm s) (pending, sources)

/-- The `while let Some(state) = self.pending.pop_front()` loop of
`Worker::check`.  `fuel` is the value of the `remaining` budget counter at
the head of the loop (the entry point `Worker.check` never passes `0`, see
`effBudget`).  The last component of the result is a ghost counter of how
many states were popped, used only to state budget claims; the first three
components are the returned `CheckResult` and the final `pending` and
`sources`. -/
def checkLoop (fp : State → Nat) (sm : SM State Action)
    (inv : SM State Action → State → Bool) :
    Nat → List State → Sources → CheckResult State × List State × Sources × Nat
  | 0, pending, sources => (.Incomplete, pending, sources, 0)
  | fuel + 1, pending, sources =>
    match pending with
    | [] => (.Pass, [], sources, 0)
    | s :: rest =>
      let ex := expandStep fp sm s rest sources
      if inv sm s = false then (.Fail s, ex.1, ex.2, 1)
      else if fuel = 0 then (.Incomplete, ex.1, ex.2, 1)
      else
        let r := checkLoop fp sm inv fuel ex.1 ex.2
        (r.1, r.2.1, r.2.2.1, r.2.2.2 + 1)

/-- The effective budget of `Worker::check(max_count)`: `remaining` is a
`usize`, so `remaining -= 1` at `max_count = 0` wraps around to `2^64 - 1`
(release semantics) and the pass behaves as a budget of `2^64`. -/
def effBudget (maxCount : Nat) : Nat :=
  if maxCount = 0 then 2 ^ 64 else maxCount

/-- `Worker::check(max_count)`: run the pop/expand/evaluate loop.  Returns
the `CheckResult`, the updated worker, and the ghost count of popped
states. -/
def Worker.check (fp : State → Nat) (w : Worker State Action)
    (maxCount : Nat) : CheckResult State × Worker State Action × Nat :=
  let r := checkLoop fp w.machine w.invariant (effBudget maxCount) w.pending w.sources
  (r.1, { w with pending := r.2.1, sources := r.2.2.1 }, r.2.2.2)

/-- `Worker::fork`: the worker keeps the first `len/2` frontier entries,
the new worker receives the rest (`split_off`) and a clone of `sources`.
Returns (updated self, new worker). -/
def Worker.fork (w : Worker State Action) : Worker State Action × Worker State Action :=
  let len := w.pending.length / 2
  ({ w with pending := w.pending.take len },
   { invariant := w.invariant, machine := w.machine,
     pending := w.pending.drop len, sources := w.sources })

/-- A checker (checker.rs `Checker`): an ordered collection of workers. -/
structure Checker (State Action : Type) where
  workers : List (Worker State Action)

/-- `Checker::new`: a single freshly initialized worker. -/
def Checker.new (fp : State → Nat) (sm : SM State Action)
    (inv : SM State Action → State → Bool) : Checker State Action :=
  ⟨[Worker.init fp sm inv]⟩

/-- The `all_passed` test in `Checker::check`'s consolidation. -/
def allPassed : List (CheckResult State) → Bool
  | [] => true
  | r :: rest =>
    (match r with
     | .Pass => true
     | _ => false) && allPassed rest

/-- The `for result in results { if let Fail ... }` scan: the state of the
first `Fail` result, if any. -/
def firstFail : List (CheckResult State) → Option State
  | [] => none
  | .Fail s :: _ => some s
  | _ :: rest => firstFail rest

/-- The consolidation step of `Checker::check`. -/
def consolidate (results : List (CheckResult State)) : CheckResult State :=
  if allPassed results then .Pass
  else
    match firstFail results with
    | some s => .Fail s
    | none => .Incomplete

/-- `Checker::check(max_count)`: run every worker's pass (each worker's
pass is a pure function of its own state, so the fork-join of scoped
threads is a `map`) and consolidate the results. -/
def Checker.check (fp : State → Nat) (c : Checker State Action)
    (maxCount : Nat) : CheckResult State × Checker State Action :=
  let outcomes := c.workers.map fun w => Worker.check fp w maxCount
  (consolidate (outcomes.map fun o => o.1), ⟨outcomes.map fun o => o.2.1⟩)

/-- `Checker::sources`: the union of the workers' maps via
`HashMap::extend`, under which a later worker's entry overrides an earlier
one; with first-match association-list lookup this means a later worker's
entries are prepended. -/
def Checker.sources (c : Checker State Action) : Sources :=
  c.workers.foldl (fun acc w => w.sources ++ acc) []

/-- Number of entries of a sources map (distinct keys, as in
`HashMap::len`). -/
def sourcesLen (m : Sources) : Nat := (mapKeys m).dedup.length

/-- `Checker::pending_count`. -/
def Checker.pending_count (c : Checker State Action) : Nat :=
  (c.workers.map fun w => w.pending.length).sum

/-- Step 1 of `Checker::path_to`: the
`while let Some(source) = sources.get(&next_digest)` walk building the
digest stack (top of stack at the head of the returned list).  A
terminating run of the source loop visits pairwise-distinct keys, so
`sources.length + 1` fuel decides it; `none` models divergence on a cyclic
map (which cannot arise from checking). -/
def buildDigests (sources : Sources) :
    Nat → Nat → List Nat → Option (List Nat)
  | 0, _, _ => none
  | fuel + 1, d, acc =>
    match alookup sources d with
    | none => some acc
    | some none => some (d :: acc)
    | some (some prev) => buildDigests sources fuel prev (d :: acc)

/-- Step 2 of `Checker::path_to`:
`init_states.into_iter().find(|s| fingerprint(&s) == digests.pop().unwrap())`.
The pop happens inside the `find` closure, so one digest is popped from the
stack per candidate initial state; an empty stack at a pop, or an exhausted
candidate list, is an `unwrap` panic (`none`). -/
def findInitState (fp : State → Nat) :
    List State → List Nat → Option (State × List Nat)
  | [], _ => none
  | s :: rest, stack =>
    match stack with
    | [] => none
    | d :: stack' =>
      if fp s = d then some (s, stack') else findInitState fp rest stack'

/-- The `find_map` over actions in step 3 of `Checker::path_to`: the first
action whose `next_state` has the target fingerprint. -/
def findAction (fp : State → Nat) (sm : SM State Action) (last : State)
    (d : Nat) : List Action → Option (Action × State)
  | [] => none
  | a :: more =>
    match sm.next_state last a with
    | some t => if fp t = d then some (a, t) else findAction fp sm last d more
    | none => findAction fp sm last d more

/-- Step 3 of `Checker::path_to`: unwind the remaining digest stack,
emitting one `(state, action)` pair per digest; a digest no action
reproduces is the `expect("state matching recorded digest")` panic. -/
def replaySteps (fp : State → Nat) (sm : SM State Action) :
    State → List Nat → Option (List (State × Action))
  | _, [] => some []
  | last, d :: rest =>
    match findAction fp sm last d (sm.actions last) with
    | none => none
    | some (a, t) =>
      match replaySteps fp sm t rest with
      | none => none
      | some tail => some ((last, a) :: tail)

/-- `Checker::path_to(state)`.  `none` models a panic (or, for the digest
walk, divergence on a corrupt map). -/
def Checker.path_to (fp : State → Nat) (c : Checker State Action)
    (state : State) : Option (List (State × Action)) :=
  match c.workers with
  | [] => none
  | w0 :: _ =>
    let sources := Checker.sources c
    match buildDigests sources (sources.length + 1) (fp state) [] with
    | none => none
    | some digests =>
      match findInitState fp w0.machine.init_states digests with
      | none => none
      | some (s0, rest) => replaySteps fp w0.machine s0 rest

/-- The inner `for worker in &mut self.workers` loop of
`Checker::adjust_worker_count`: walk the workers, breaking once
`existing_count + added.len() >= target`, skipping workers with
`pending.len() < min_pending`, and forking the rest.  Returns the updated
worker list and the `added` list accumulated this pass. -/
def forkPass (target minPending existing : Nat) :
    List (Worker State Action) → Nat →
    List (Worker State Action) × List (Worker State Action)
  | [], _ => ([], [])
  | w :: rest, addedLen =>
    if target ≤ existing + addedLen then (w :: rest, [])
    else if w.pending.length < minPending then
      let r := forkPass target minPending existing rest addedLen
      (w :: r.1, r.2)
    else
      let f := Worker.fork w
      let r := forkPass target minPending existing rest (addedLen + 1)
      (f.1 :: r.1, f.2 :: r.2)

/-- The outer `loop` of `Checker::adjust_worker_count`: recompute the count
of workers with non-empty frontiers, run a fork pass, return when no worker
was forked, else append the new workers and repeat.  The loop has no
structural bound, so it takes fuel; `none` models divergence. -/
def adjustLoop (target minPending : Nat) :
    Nat → List (Worker State Action) → Option (List (Worker State Action))
  | 0, _ => none
  | fuel + 1, workers =>
    let existing := (workers.filter fun w => !w.pending.isEmpty).length
    let r := forkPass target minPending existing workers 0
    if r.2.isEmpty then some r.1
    else adjustLoop target minPending fuel (r.1 ++ r.2)

/-- `Checker::adjust_worker_count(target, min_pending)`, fuelled. -/
def Checker.adjust_worker_count (c : Checker State Action)
    (target minPending fuel : Nat) : Option (Checker State Action) :=
  (adjustLoop target minPending fuel c.workers).map Checker.mk

/-- Invariant 3 of the spec's data model: every frontier state's
fingerprint is a key of the worker's predecessor map. -/
def frontierSub (fp : State → Nat) (w : Worker State Action) : Prop :=
  ∀ s ∈ w.pending, fp s ∈ mapKeys w.sources

/-- Potential of one worker for the termination argument of
`adjust_worker_count`. -/
def workerPot (minPending : Nat) (w : Worker State Action) : Nat :=
  w.pending.length + 1 - minPending

/-- Potential of a worker list: forking a worker whose frontier has at
least `minPending ≥ 2` states strictly decreases it. -/
def phiPot (minPending : Nat) (ws : List (Worker State Action)) : Nat :=
  (ws.map (workerPot minPending)).sum

/-- The actions of the spec's linear-equation test machine. -/
inductive Guess where
  | IncreaseX
  | IncreaseY
deriving DecidableEq

/-- Modelled from the spec: the `test_util::linear_equation_solver`
machine, which is referenced by checker.rs's tests but absent from `src/`.
State `(x, y) ∈ [0,255]²`, initial state `(0,0)`, actions IncX then IncY,
transitions `(x+1 mod 256, y)` and `(x, y+1 mod 256)`. -/
def LinearEquation : SM (Nat × Nat) Guess where
  init_states := [(0, 0)]
  actions _ := [.IncreaseX, .IncreaseY]
  next_state s g :=
    match g with
    | .IncreaseX => some ((s.1 + 1) % 256, s.2)
    | .IncreaseY => some (s.1, (s.2 + 1) % 256)

/-- Modelled from the spec: the linear-equation invariant
`a*x + b*y ≠ c` of the missing `test_util` module. -/
def linEqInvariant (a b c : Nat) : SM (Nat × Nat) Guess → (Nat × Nat) → Bool :=
  fun _ s => decide (a * s.1 + b * s.2 ≠ c)

/-- Modelled from the spec: `fingerprint`, a deterministic 64-bit hash
function defined outside `src/`; per the spec the implementer picks a hash
injective in practice on the target state space, realized here for
`[0,255]²` pairs by the injective `256*x + y`. -/
def pairFP : Nat × Nat → Nat := fun s => 256 * s.1 + s.2

/-- Modelled from the spec: a fingerprint for `Nat` states (injective, so
collision-free as the spec's design point requires). -/
def natFP : Nat → Nat := fun n => n

/-- A one-state machine whose only transition is a self-loop; its sole
purpose is to empty the frontier on the pop that exhausts a budget. -/
def SelfLoop : SM Nat Unit where
  init_states := [0]
  actions _ := [()]
  next_state s _ := some s

/-- The always-true invariant for `SelfLoop`. -/
def trueInv : SM Nat Unit → Nat → Bool := fun _ _ => true

/-- A machine with two initial states `(0,0)` and `(5,5)` and the
linear-equation transitions; exercises `path_to` on a failing state whose
matching initial state is not the first. -/
def TwoInit : SM (Nat × Nat) Guess where
  init_states := [(0, 0), (5, 5)]
  actions _ := [.IncreaseX, .IncreaseY]
  next_state s g :=
    match g with
    | .IncreaseX => some ((s.1 + 1) % 256, s.2)
    | .IncreaseY => some (s.1, (s.2 + 1) % 256)

/-- Invariant for `TwoInit`: every state except `(5,5)` is fine. -/
def notFiveFive : SM (Nat × Nat) Guess → (Nat × Nat) → Bool :=
  fun _ s => decide (s ≠ (5, 5))

/-- A worker with two frontier states, for exercising
`adjust_worker_count` at the `min_pending` boundary. -/
def twoPendingWorker : Worker Nat Unit :=
  ⟨trueInv, SelfLoop, [0, 1], [(0, none), (1, none)]⟩

/-- A worker with an empty frontier, for exercising `adjust_worker_count`
at `min_pending = 0`. -/
def emptyPendingWorker : Worker Nat Unit :=
  ⟨trueInv, SelfLoop, [], []⟩

theorem mapKeys_append (a b : Sources) :
    mapKeys (a ++ b) = mapKeys a ++ mapKeys b := by
  simp [mapKeys]

theorem alookup_isSome (m : Sources) (k : Nat) :
    (alookup m k).isSome = true ↔ k ∈ mapKeys m := by
  induction m with
  | nil => simp [alookup, mapKeys]
  | cons e rest ih =>
    obtain ⟨a, b⟩ := e
    by_cases h : a = k
    · subst h; simp [alookup, mapKeys]
    · simp [alookup, mapKeys, h, ih, Ne.symm h]

/-- Specification of the `Worker::init` seeding fold: the frontier receives
exactly the fresh-fingerprint initial states, in order, and `sources`
receives exactly their fingerprints mapped to `none`. -/
theorem seedFold_spec (fp : State → Nat) :
    ∀ (states : List State) (p : List State) (src : Sources),
    ∃ pushed entries,
      states.foldl (seedBody fp) (p, src) = (p ++ pushed, src ++ entries) ∧
      mapKeys entries = pushed.map fp ∧
      (∀ e ∈ entries, e.2 = none) ∧
      (∀ t ∈ pushed, fp t ∉ mapKeys src) ∧
      (pushed.map fp).Nodup ∧
      (∀ s ∈ states, fp s ∈ mapKeys (src ++ entries)) ∧
      (∀ t ∈ pushed, t ∈ states) := by
  intro states
  induction states with
  | nil =>
    intro p src
    exact ⟨[], [], by simp [mapKeys]⟩
  | cons s rest ih =>
    intro p src
    by_cases h : (alookup src (fp s)).isSome = true
    · obtain ⟨pushed, entries, h1, h2, h3, h4, h5, h6, h7⟩ := ih p src
      refine ⟨pushed, entries, ?_, h2, h3, h4, h5, ?_, ?_⟩
      · simpa [seedBody, h] using h1
      · intro s' hs'
        rcases List.mem_cons.mp hs' with rfl | hs'
        · have hk := (alookup_isSome src (fp s')).mp h
          simp only [mapKeys_append, List.mem_append]
          exact Or.inl hk
        · exact h6 s' hs'
      · intro t ht
        exact List.mem_cons_of_mem _ (h7 t ht)
    · obtain ⟨pushed, entries, h1, h2, h3, h4, h5, h6, h7⟩ :=
        ih (p ++ [s]) (src ++ [(fp s, none)])
      have hfresh : fp s ∉ mapKeys src := fun hk => h ((alookup_isSome src (fp s)).mpr hk)
      refine ⟨s :: pushed, (fp s, none) :: entries, ?_, ?_, ?_, ?_, ?_, ?_, ?_⟩
      · have : rest.foldl (seedBody fp) (p ++ [s], src ++ [(fp s, none)]) =
            (p ++ s :: pushed, src ++ (fp s, none) :: entries) := by
          rw [h1]; simp
        simpa [seedBody, h] using this
      · simpa [mapKeys] using h2
      · intro e he
        rcases List.mem_cons.mp he with rfl | he
        · rfl
        · exact h3 e he
      · intro t ht
        rcases List.mem_cons.mp ht with rfl | ht
        · exact hfresh
        · intro hk
          exact h4 t ht (by simp [mapKeys_append, hk])
      · refine List.nodup_cons.mpr ⟨?_, h5⟩
        intro hmem
        obtain ⟨u, hu, hfu⟩ := List.mem_map.mp hmem
        exact h4 u hu (by simp [mapKeys_append, mapKeys, hfu])
      · intro s' hs'
        rcases List.mem_cons.mp hs' with rfl | hs'
        · simp [mapKeys_append, mapKeys]
        · have := h6 s' hs'
          simpa [mapKeys] using this
      · intro t ht
        rcases List.mem_cons.mp ht with rfl | ht
        · exact List.mem_cons_self _ _
        · exact List.mem_cons_of_mem _ (h7 t ht)

/-- Specification of the expansion fold of `Worker::check` for one popped
state `s`: the frontier is extended by exactly the fresh-fingerprint
successors of `s`, in action order, each recorded in `sources` with
predecessor `Some (fp s)`; afterwards every successor's fingerprint is a
key of `sources`. -/
theorem expandFold_spec (fp : State → Nat) (sm : SM State Action) (s : State) :
    ∀ (acts : List Action) (p : List State) (src : Sources),
    ∃ pushed entries,
      acts.foldl (expandBody fp sm s) (p, src) = (p ++ pushed, src ++ entries) ∧
      mapKeys entries = pushed.map fp ∧
      (∀ e ∈ entries, e.2 = some (fp s)) ∧
      (∀ t ∈ pushed, fp t ∉ mapKeys src) ∧
      (pushed.map fp).Nodup ∧
      (∀ a ∈ acts, ∀ t, sm.next_state s a = some t → fp t ∈ mapKeys (src ++ entries)) := by
  intro acts
  induction acts with
  | nil =>
    intro p src
    exact ⟨[], [], by simp [mapKeys]⟩
  | cons a rest ih =>
    intro p src
    rcases hns : sm.next_state s a with _ | t
    · obtain ⟨pushed, entries, h1, h2, h3, h4, h5, h6⟩ := ih p src
      refine ⟨pushed, entries, ?_, h2, h3, h4, h5, ?_⟩
      · simpa [expandBody, hns] using h1
      · intro a' ha' t' hns'
        rcases List.mem_cons.mp ha' with rfl | ha'
        · rw [hns] at hns'; cases hns'
        · exact h6 a' ha' t' hns'
    · by_cases h : (alookup src (fp t)).isSome = true
      · obtain ⟨pushed, entries, h1, h2, h3, h4, h5, h6⟩ := ih p src
        refine ⟨pushed, entries, ?_, h2, h3, h4, h5, ?_⟩
        · simpa [expandBody, hns, h] using h1
        · intro a' ha' t' hns'
          rcases List.mem_cons.mp ha' with rfl | ha'
          · rw [hns] at hns'; cases hns'
            have hk := (alookup_isSome src (fp t)).mp h
            simp only [mapKeys_append, List.mem_append]
            exact Or.inl hk
          · exact h6 a' ha' t' hns'
      · obtain ⟨pushed, entries, h1, h2, h3, h4, h5, h6⟩ :=
          ih (p ++ [t]) (src ++ [(fp t, some (fp s))])
        have hfresh : fp t ∉ mapKeys src := fun hk => h ((alookup_isSome src (fp t)).mpr hk)
        refine ⟨t :: pushed, (fp t, some (fp s)) :: entries, ?_, ?_, ?_, ?_, ?_, ?_⟩
        · have : rest.foldl (expandBody fp sm s) (p ++ [t], src ++ [(fp t, some (fp s))]) =
              (p ++ t :: pushed, src ++ (fp t, some (fp s)) :: entries) := by
            rw [h1]; simp
          simpa [expandBody, hns, h] using this
        · simpa [mapKeys] using h2
        · intro e he
          rcases List.mem_cons.mp he with rfl | he
          · rfl
          · exact h3 e he
        · intro u hu
          rcases List.mem_cons.mp hu with rfl | hu
          · exact hfresh
          · intro hk
            exact h4 u hu (by simp [mapKeys_append, hk])
        · refine List.nodup_cons.mpr ⟨?_, h5⟩
          intro hmem
          obtain ⟨u, hu, hfu⟩ := List.mem_map.mp hmem
          exact h4 u hu (by simp [mapKeys_append, mapKeys, hfu])
        · intro a' ha' t' hns'
          rcases List.mem_cons.mp ha' with rfl | ha'
          · rw [hns] at hns'; cases hns'
            simp [mapKeys_append, mapKeys]
          · have := h6 a' ha' t' hns'
            simpa [mapKeys] using this

/-- `expandStep` satisfies the fold specification. -/
theorem expandStep_spec (fp : State → Nat) (sm : SM State Action) (s : State)
    (p : List State) (src : Sources) :
    ∃ pushed entries,
      expandStep fp sm s p src = (p ++ pushed, src ++ entries) ∧
      mapKeys entries = pushed.map fp ∧
      (∀ e ∈ entries, e.2 = some (fp s)) ∧
      (∀ t ∈ pushed, fp t ∉ mapKeys src) ∧
      (pushed.map fp).Nodup ∧
      (∀ a ∈ sm.actions s, ∀ t, sm.next_state s a = some t →
        fp t ∈ mapKeys (src ++ entries)) :=
  expandFold_spec fp sm s (sm.actions s) p src

theorem checkLoop_zero (fp : State → Nat) (sm : SM State Action)
    (inv : SM State Action → State → Bool) (p : List State) (src : Sources) :
    checkLoop fp sm inv 0 p src = (.Incomplete, p, src, 0) := rfl

theorem checkLoop_succ_nil (fp : State → Nat) (sm : SM State Action)
    (inv : SM State Action → State → Bool) (fuel : Nat) (src : Sources) :
    checkLoop fp sm inv (fuel + 1) [] src = (.Pass, [], src, 0) := rfl

theorem checkLoop_succ_cons (fp : State → Nat) (sm : SM State Action)
    (inv : SM State Action → State → Bool) (fuel : Nat) (s : State)
    (rest : List State) (src : Sources) :
    checkLoop fp sm inv (fuel + 1) (s :: rest) src =
      (let ex := expandStep fp sm s rest src
       if inv sm s = false then (.Fail s, ex.1, ex.2, 1)
       else if fuel = 0 then (.Incomplete, ex.1, ex.2, 1)
       else
         let r := checkLoop fp sm inv fuel ex.1 ex.2
         (r.1, r.2.1, r.2.2.1, r.2.2.2 + 1)) := rfl

/-- The check loop only appends to `sources`. -/
theorem checkLoop_sources_extend (fp : State → Nat) (sm : SM State Action)
    (inv : SM State Action → State → Bool) :
    ∀ (fuel : Nat) (p : List State) (src : Sources),
    ∃ ext, (checkLoop fp sm inv fuel p src).2.2.1 = src ++ ext := by
  intro fuel
  induction fuel with
  | zero => intro p src; exact ⟨[], by simp [checkLoop_zero]⟩
  | succ fuel ih =>
    intro p src
    cases p with
    | nil => exact ⟨[], by simp [checkLoop_succ_nil]⟩
    | cons s rest =>
      obtain ⟨pushed, entries, h1, -, -, -, -, -⟩ := expandStep_spec fp sm s rest src
      rw [checkLoop_succ_cons]
      by_cases hinv : inv sm s = false
      · exact ⟨entries, by simp [hinv, h1]⟩
      · by_cases hf : fuel = 0
        · exact ⟨entries, by simp [hinv, hf, h1]⟩
        · obtain ⟨ext, hext⟩ :=
            ih (expandStep fp sm s rest src).1 (expandStep fp sm s rest src).2
          refine ⟨entries ++ ext, ?_⟩
          simp only [hinv, hf, if_false, ite_false]
          simp only [h1] at hext ⊢
          simp [hext]

/-- The ghost pop counter of the check loop is bounded by the fuel. -/
theorem checkLoop_pops_le (fp : State → Nat) (sm : SM State Action)
    (inv : SM State Action → State → Bool) :
    ∀ (fuel : Nat) (p : List State) (src : Sources),
    (checkLoop fp sm inv fuel p src).2.2.2 ≤ fuel := by
  intro fuel
  induction fuel with
  | zero => intro p src; simp [checkLoop_zero]
  | succ fuel ih =>
    intro p src
    cases p with
    | nil => simp [checkLoop_succ_nil]
    | cons s rest =>
      rw [checkLoop_succ_cons]
      by_cases hinv : inv sm s = false
      · simp [hinv]
      · by_cases hf : fuel = 0
        · simp [hinv, hf]
        · have := ih (expandStep fp sm s rest src).1 (expandStep fp sm s rest src).2
          simp only [hinv, hf] at this ⊢
          simp
          omega

/-- `Incomplete` is returned exactly when the whole budget was consumed:
the pop counter then equals the fuel. -/
theorem checkLoop_incomplete_pops (fp : State → Nat) (sm : SM State Action)
    (inv : SM State Action → State → Bool) :
    ∀ (fuel : Nat) (p : List State) (src : Sources),
    (checkLoop fp sm inv fuel p src).1 = .Incomplete →
    (checkLoop fp sm inv fuel p src).2.2.2 = fuel := by
  intro fuel
  induction fuel with
  | zero => intro p src _; simp [checkLoop_zero]
  | succ fuel ih =>
    intro p src h
    cases p with
    | nil => rw [checkLoop_succ_nil] at h; cases h
    | cons s rest =>
      rw [checkLoop_succ_cons] at h ⊢
      by_cases hinv : inv sm s = false
      · simp [hinv] at h
      · by_cases hf : fuel = 0
        · simp [hinv, hf]
        · have hrec := ih (expandStep fp sm s rest src).1 (expandStep fp sm s rest src).2
          simp only [hinv, hf] at h ⊢
          simp at h ⊢
          have h2 := hrec h
          omega

/-- `Pass` is returned only when the frontier was found empty, which
happens before the budget is consumed. -/
theorem checkLoop_pass_spec (fp : State → Nat) (sm : SM State Action)
    (inv : SM State Action → State → Bool) :
    ∀ (fuel : Nat) (p : List State) (src : Sources),
    (checkLoop fp sm inv fuel p src).1 = .Pass →
    (checkLoop fp sm inv fuel p src).2.1 = [] ∧
    (checkLoop fp sm inv fuel p src).2.2.2 < fuel := by
  intro fuel
  induction fuel with
  | zero => intro p src h; rw [checkLoop_zero] at h; cases h
  | succ fuel ih =>
    intro p src h
    cases p with
    | nil => simp [checkLoop_succ_nil]
    | cons s rest =>
      rw [checkLoop_succ_cons] at h ⊢
      by_cases hinv : inv sm s = false
      · simp [hinv] at h
      · by_cases hf : fuel = 0
        · simp [hinv, hf] at h
        · have := ih (expandStep fp sm s rest src).1 (expandStep fp sm s rest src).2
          simp only [hinv, hf] at h this ⊢
          simp at h ⊢
          obtain ⟨h1, h2⟩ := this h
          exact ⟨h1, by omega⟩

/-- The check loop preserves the frontier-subset invariant: if every
pending fingerprint is a key of `sources` on entry, the same holds of the
final frontier and map. -/
theorem checkLoop_frontier (fp : State → Nat) (sm : SM State Action)
    (inv : SM State Action → State → Bool) :
    ∀ (fuel : Nat) (p : List State) (src : Sources),
    (∀ t ∈ p, fp t ∈ mapKeys src) →
    ∀ t ∈ (checkLoop fp sm inv fuel p src).2.1,
      fp t ∈ mapKeys (checkLoop fp sm inv fuel p src).2.2.1 := by
  intro fuel
  induction fuel with
  | zero =>
    intro p src hsub t ht
    rw [checkLoop_zero] at ht ⊢
    exact hsub t ht
  | succ fuel ih =>
    intro p src hsub
    cases p with
    | nil => simp [checkLoop_succ_nil]
    | cons s rest =>
      obtain ⟨pushed, entries, h1, h2, -, -, -, -⟩ := expandStep_spec fp sm s rest src
      have hsub' : ∀ t ∈ (expandStep fp sm s rest src).1,
          fp t ∈ mapKeys (expandStep fp sm s rest src).2 := by
        rw [h1]
        intro t ht
        rcases List.mem_append.mp ht with ht | ht
        · have := hsub t (List.mem_cons_of_mem _ ht)
          simp [mapKeys_append, this]
        · have : fp t ∈ mapKeys entries := by
            rw [h2]; exact List.mem_map_of_mem fp ht
          simp [mapKeys_append, this]
      intro t ht
      rw [checkLoop_succ_cons] at ht ⊢
      by_cases hinv : inv sm s = false
      · simp [hinv] at ht ⊢
        exact hsub' t ht
      · by_cases hf : fuel = 0
        · simp only [hinv, hf] at ht ⊢
          simp at ht ⊢
          exact hsub' t ht
        · have := ih (expandStep fp sm s rest src).1 (expandStep fp sm s rest src).2 hsub'
          simp only [hinv, hf] at ht ⊢
          simp at ht ⊢
          exact this t ht

/-- When the check loop fails on `s`, every successor of `s` has already
been recorded in the final `sources`. -/
theorem checkLoop_fail_successors (fp : State → Nat) (sm : SM State Action)
    (inv : SM State Action → State → Bool) :
    ∀ (fuel : Nat) (p : List State) (src : Sources) (s : State),
    (checkLoop fp sm inv fuel p src).1 = .Fail s →
    ∀ a ∈ sm.actions s, ∀ t, sm.next_state s a = some t →
      fp t ∈ mapKeys (checkLoop fp sm inv fuel p src).2.2.1 := by
  intro fuel
  induction fuel with
  | zero => intro p src s h; rw [checkLoop_zero] at h; cases h
  | succ fuel ih =>
    intro p src s h
    cases p with
    | nil => rw [checkLoop_succ_nil] at h; cases h
    | cons s' rest =>
      rw [checkLoop_succ_cons] at h ⊢
      by_cases hinv : inv sm s' = false
      · obtain ⟨pushed, entries, h1, -, -, -, -, h6⟩ := expandStep_spec fp sm s' rest src
        simp [hinv] at h ⊢
        cases h
        intro a ha t hns
        simp [h1]
        exact h6 a ha t hns
      · by_cases hf : fuel = 0
        · simp only [hinv, hf] at h
          simp at h
        · have := ih (expandStep fp sm s' rest src).1 (expandStep fp sm s' rest src).2 s
          simp only [hinv, hf] at h this ⊢
          simp at h this ⊢
          exact this h

/-- Membership in the key set of the worker-map union fold. -/
theorem sources_foldl_mem (k : Nat) :
    ∀ (ws : List (Worker State Action)) (acc : Sources),
    (k ∈ mapKeys (ws.foldl (fun acc w => w.sources ++ acc) acc) ↔
      (∃ w ∈ ws, k ∈ mapKeys w.sources) ∨ k ∈ mapKeys acc) := by
  intro ws
  induction ws with
  | nil => intro acc; simp
  | cons w rest ih =>
    intro acc
    rw [List.foldl_cons, ih]
    simp only [mapKeys_append, List.mem_append, List.mem_cons]
    constructor
    · rintro (⟨w', hw', hk⟩ | hk | hk)
      · exact Or.inl ⟨w', Or.inr hw', hk⟩
      · exact Or.inl ⟨w, Or.inl rfl, hk⟩
      · exact Or.inr hk
    · rintro (⟨w', rfl | hw', hk⟩ | hk)
      · exact Or.inr (Or.inl hk)
      · exact Or.inl ⟨w', hw', hk⟩
      · exact Or.inr (Or.inr hk)

/-- A key belongs to `Checker::sources` iff some worker has it. -/
theorem checker_sources_mem (c : Checker State Action) (k : Nat) :
    k ∈ mapKeys (Checker.sources c) ↔ ∃ w ∈ c.workers, k ∈ mapKeys w.sources := by
  have := sources_foldl_mem k c.workers []
  simpa [Checker.sources, mapKeys] using this

theorem allPassed_iff :
    ∀ rs : List (CheckResult State), allPassed rs = true ↔ ∀ r ∈ rs, r = .Pass := by
  intro rs
  induction rs with
  | nil => simp [allPassed]
  | cons r rest ih => cases r <;> simp [allPassed, ih]

theorem firstFail_none_iff :
    ∀ rs : List (CheckResult State),
    firstFail rs = none ↔ ∀ s, CheckResult.Fail s ∉ rs := by
  intro rs
  induction rs with
  | nil => simp [firstFail]
  | cons r rest ih =>
    cases r with
    | Fail u =>
      constructor
      · intro h; cases h
      · intro h; exact absurd (List.mem_cons_self _ _) (h u)
    | Pass => simpa [firstFail] using ih
    | Incomplete => simpa [firstFail] using ih

/-- `firstFail` returns exactly the state of the first `Fail` entry. -/
theorem firstFail_some_iff :
    ∀ (rs : List (CheckResult State)) (s : State),
    firstFail rs = some s ↔
      ∃ pre post, rs = pre ++ .Fail s :: post ∧ ∀ t, CheckResult.Fail t ∉ pre := by
  intro rs
  induction rs with
  | nil =>
    intro s
    constructor
    · intro h; cases h
    · rintro ⟨pre, post, heq, -⟩
      exact absurd (List.append_eq_nil.mp heq.symm).2 (List.cons_ne_nil _ _)
  | cons r rest ih =>
    intro s
    cases r with
    | Fail u =>
      constructor
      · intro h
        simp [firstFail] at h
        exact ⟨[], rest, by simp [h], by simp⟩
      · rintro ⟨pre, post, heq, hpre⟩
        cases pre with
        | nil =>
          simp at heq
          simp [firstFail, heq.1]
        | cons q pre' =>
          simp at heq
          refine absurd ?_ (hpre u)
          rw [heq.1]
          exact List.mem_cons_self q pre'
    | Pass =>
      rw [show firstFail (CheckResult.Pass :: rest) = firstFail rest from rfl, ih]
      constructor
      · rintro ⟨pre, post, heq, hpre⟩
        refine ⟨.Pass :: pre, post, by simp [heq], ?_⟩
        intro t
        simp [hpre t]
      · rintro ⟨pre, post, heq, hpre⟩
        cases pre with
        | nil => simp at heq
        | cons q pre' =>
          simp at heq
          refine ⟨pre', post, heq.2, ?_⟩
          intro t ht
          exact hpre t (List.mem_cons_of_mem _ ht)
    | Incomplete =>
      rw [show firstFail (CheckResult.Incomplete :: rest) = firstFail rest from rfl, ih]
      constructor
      · rintro ⟨pre, post, heq, hpre⟩
        refine ⟨.Incomplete :: pre, post, by simp [heq], ?_⟩
        intro t
        simp [hpre t]
      · rintro ⟨pre, post, heq, hpre⟩
        cases pre with
        | nil => simp at heq
        | cons q pre' =>
          simp at heq
          refine ⟨pre', post, heq.2, ?_⟩
          intro t ht
          exact hpre t (List.mem_cons_of_mem _ ht)

/-- Worker `w'` is what remains of worker `w` after zero or more forks:
same invariant, machine and sources, and a frontier that is a prefix
(a `take`) of the original frontier. -/
def derivedFrom (w' w : Worker State Action) : Prop :=
  w'.invariant = w.invariant ∧ w'.machine = w.machine ∧ w'.sources = w.sources ∧
  ∃ k, w'.pending = w.pending.take k

theorem derivedFrom_refl (w : Worker State Action) : derivedFrom w w :=
  ⟨rfl, rfl, rfl, w.pending.length, (List.take_length w.pending).symm⟩

theorem derivedFrom_trans {a b c : Worker State Action}
    (h1 : derivedFrom a b) (h2 : derivedFrom b c) : derivedFrom a c := by
  obtain ⟨i1, m1, s1, k1, hk1⟩ := h1
  obtain ⟨i2, m2, s2, k2, hk2⟩ := h2
  exact ⟨i1.trans i2, m1.trans m2, s1.trans s2, min k1 k2,
    by rw [hk1, hk2, List.take_take]⟩

theorem forall₂_derived_trans :
    ∀ {a b c : List (Worker State Action)},
    List.Forall₂ derivedFrom a b → List.Forall₂ derivedFrom b c →
    List.Forall₂ derivedFrom a c := by
  intro a b c h1 h2
  induction h1 generalizing c with
  | nil => cases h2; exact List.Forall₂.nil
  | cons hab h1' ih =>
    cases h2 with
    | cons hbc h2' => exact List.Forall₂.cons (derivedFrom_trans hab hbc) (ih h2')

/-- `forkPass` breaks immediately when the target is already met. -/
theorem forkPass_break (target minPending existing : Nat)
    (ws : List (Worker State Action)) (addedLen : Nat)
    (h : target ≤ existing + addedLen) :
    forkPass target minPending existing ws addedLen = (ws, []) := by
  cases ws with
  | nil => rfl
  | cons w rest => simp [forkPass, h]

/-- `forkPass` forks nothing when no worker's frontier reaches
`min_pending`. -/
theorem forkPass_no_eligible (target minPending existing : Nat) :
    ∀ (ws : List (Worker State Action)) (addedLen : Nat),
    (∀ w ∈ ws, w.pending.length < minPending) →
    forkPass target minPending existing ws addedLen = (ws, []) := by
  intro ws
  induction ws with
  | nil => intro addedLen _; rfl
  | cons w rest ih =>
    intro addedLen hall
    by_cases hb : target ≤ existing + addedLen
    · exact forkPass_break _ _ _ _ _ hb
    · have hw := hall w (List.mem_cons_self _ _)
      have hr := ih addedLen fun u hu => hall u (List.mem_cons_of_mem _ hu)
      simp [forkPass, hb, hw, hr]

/-- Each worker surviving a fork pass in place is derived from the
original at the same position. -/
theorem forkPass_derived (target minPending existing : Nat) :
    ∀ (ws : List (Worker State Action)) (addedLen : Nat),
    List.Forall₂ derivedFrom
      (forkPass target minPending existing ws addedLen).1 ws := by
  intro ws
  induction ws with
  | nil => intro addedLen; exact List.Forall₂.nil
  | cons w rest ih =>
    intro addedLen
    by_cases hb : target ≤ existing + addedLen
    · rw [forkPass_break _ _ _ _ _ hb]
      exact List.forall₂_same.mpr fun w _ => derivedFrom_refl w
    · by_cases hw : w.pending.length < minPending
      · simp only [forkPass, if_neg hb, if_pos hw]
        exact List.Forall₂.cons (derivedFrom_refl w) (ih addedLen)
      · simp only [forkPass, if_neg hb, if_neg hw]
        exact List.Forall₂.cons ⟨rfl, rfl, rfl, w.pending.length / 2, rfl⟩
          (ih (addedLen + 1))

theorem phiPot_append (minPending : Nat) (a b : List (Worker State Action)) :
    phiPot minPending (a ++ b) = phiPot minPending a + phiPot minPending b := by
  simp [phiPot]

/-- With `min_pending ≥ 2`, a fork pass lowers the total potential by at
least the number of workers forked. -/
theorem forkPass_phi (target minPending : Nat) (hmp : 2 ≤ minPending)
    (existing : Nat) :
    ∀ (ws : List (Worker State Action)) (addedLen : Nat),
    phiPot minPending (forkPass target minPending existing ws addedLen).1 +
      phiPot minPending (forkPass target minPending existing ws addedLen).2 +
      (forkPass target minPending existing ws addedLen).2.length ≤
    phiPot minPending ws := by
  intro ws
  induction ws with
  | nil => intro addedLen; simp [forkPass, phiPot]
  | cons w rest ih =>
    intro addedLen
    by_cases hb : target ≤ existing + addedLen
    · rw [forkPass_break _ _ _ _ _ hb]; simp [phiPot]
    · by_cases hw : w.pending.length < minPending
      · have := ih addedLen
        simp only [forkPass, if_neg hb, if_pos hw]
        simp only [phiPot, List.map_cons, List.sum_cons] at this ⊢
        omega
      · have := ih (addedLen + 1)
        have hL : minPending ≤ w.pending.length := Nat.le_of_not_lt hw
        have hfork : workerPot minPending (Worker.fork w).1 +
            workerPot minPending (Worker.fork w).2 + 1 ≤ workerPot minPending w := by
          simp only [Worker.fork, workerPot, List.length_take, List.length_drop]
          omega
        simp only [forkPass, if_neg hb, if_neg hw]
        simp only [phiPot, List.map_cons, List.sum_cons, List.length_cons] at this ⊢
        omega

/-- With `min_pending ≥ 2`, fuel `phiPot + 1` suffices for the
`adjust_worker_count` loop. -/
theorem adjustLoop_of_phi (target minPending : Nat) (hmp : 2 ≤ minPending) :
    ∀ (n : Nat) (ws : List (Worker State Action)),
    phiPot minPending ws ≤ n →
    (adjustLoop target minPending (n + 1) ws).isSome = true := by
  intro n
  induction n with
  | zero =>
    intro ws hphi
    simp only [adjustLoop]
    by_cases he : (forkPass target minPending
        ((ws.filter fun w => !w.pending.isEmpty).length) ws 0).2.isEmpty
    · simp [he]
    · have hphi' := forkPass_phi target minPending hmp
        ((ws.filter fun w => !w.pending.isEmpty).length) ws 0
      have hne : 1 ≤ (forkPass target minPending
          ((ws.filter fun w => !w.pending.isEmpty).length) ws 0).2.length := by
        cases h2 : (forkPass target minPending
            ((ws.filter fun w => !w.pending.isEmpty).length) ws 0).2 with
        | nil => rw [h2] at he; simp at he
        | cons x xs => simp [h2]
      omega
  | succ n ih =>
    intro ws hphi
    simp only [adjustLoop]
    by_cases he : (forkPass target minPending
        ((ws.filter fun w => !w.pending.isEmpty).length) ws 0).2.isEmpty
    · simp [he]
    · rw [if_neg (by simpa using he)]
      apply ih
      have hphi' := forkPass_phi target minPending hmp
        ((ws.filter fun w => !w.pending.isEmpty).length) ws 0
      have hne : 1 ≤ (forkPass target minPending
          ((ws.filter fun w => !w.pending.isEmpty).length) ws 0).2.length := by
        cases h2 : (forkPass target minPending
            ((ws.filter fun w => !w.pending.isEmpty).length) ws 0).2 with
        | nil => rw [h2] at he; simp at he
        | cons x xs => simp [h2]
      rw [phiPot_append]
      omega

/-- The `adjust_worker_count` loop keeps each original worker position
occupied by a worker derived from the original, with new workers appended
after them. -/
theorem adjustLoop_derived (target minPending : Nat) :
    ∀ (fuel : Nat) (ws ws' : List (Worker State Action)),
    adjustLoop target minPending fuel ws = some ws' →
    ws.length ≤ ws'.length ∧
    List.Forall₂ derivedFrom (ws'.take ws.length) ws := by
  intro fuel
  induction fuel with
  | zero => intro ws ws' h; cases h
  | succ fuel ih =>
    intro ws ws' h
    simp only [adjustLoop] at h
    have hfd := forkPass_derived target minPending
      ((ws.filter fun w => !w.pending.isEmpty).length) ws 0
    have hlen := List.Forall₂.length_eq hfd
    by_cases he : (forkPass target minPending
        ((ws.filter fun w => !w.pending.isEmpty).length) ws 0).2.isEmpty
    · rw [if_pos he] at h
      cases h
      constructor
      · omega
      · rw [← hlen, List.take_length]
        exact hfd
    · rw [if_neg (by simpa using he)] at h
      obtain ⟨hle, hfa⟩ := ih _ ws' h
      rw [List.length_append] at hle
      constructor
      · omega
      · have htake : ws'.take ws.length =
            (ws'.take ((forkPass target minPending
              ((ws.filter fun w => !w.pending.isEmpty).length) ws 0).1 ++
              (forkPass target minPending
              ((ws.filter fun w => !w.pending.isEmpty).length) ws 0).2).length).take
              ws.length := by
          rw [List.take_take, List.length_append]
          have : min ws.length ((forkPass target minPending
              ((ws.filter fun w => !w.pending.isEmpty).length) ws 0).1.length +
              (forkPass target minPending
              ((ws.filter fun w => !w.pending.isEmpty).length) ws 0).2.length) =
              ws.length := by omega
          rw [this]
        rw [htake]
        refine forall₂_derived_trans ?_ hfd
        have := List.forall₂_take ws.length hfa
        rwa [List.take_append_of_le_length (by omega), ← hlen,
          List.take_length, hlen] at this

/-- A fork pass at `min_pending = 0` over workers with empty frontiers
produces only workers with empty frontiers. -/
theorem forkPass_empty_all (target existing : Nat) :
    ∀ (ws : List (Worker State Action)) (addedLen : Nat),
    (∀ w ∈ ws, w.pending = []) →
    (∀ w ∈ (forkPass target 0 existing ws addedLen).1, w.pending = []) ∧
    (∀ w ∈ (forkPass target 0 existing ws addedLen).2, w.pending = []) := by
  intro ws
  induction ws with
  | nil => intro addedLen _; simp [forkPass]
  | cons w rest ih =>
    intro addedLen hall
    by_cases hb : target ≤ existing + addedLen
    · rw [forkPass_break _ _ _ _ _ hb]
      exact ⟨hall, by simp⟩
    · have hw : ¬ w.pending.length < 0 := Nat.not_lt_zero _
      have hrest := ih (addedLen + 1) fun u hu => hall u (List.mem_cons_of_mem _ hu)
      have hwp := hall w (List.mem_cons_self _ _)
      simp only [forkPass, if_neg hb, if_neg hw]
      constructor
      · intro u hu
        rcases List.mem_cons.mp hu with rfl | hu
        · simp [Worker.fork, hwp]
        · exact hrest.1 u hu
      · intro u hu
        rcases List.mem_cons.mp hu with rfl | hu
        · simp [Worker.fork, hwp]
        · exact hrest.2 u hu

/-- At `min_pending = 0` with an unmet target, the head worker is always
forked, so the pass adds at least one worker. -/
theorem forkPass_head_fork (target existing : Nat) (w : Worker State Action)
    (rest : List (Worker State Action)) (addedLen : Nat)
    (hb : ¬ target ≤ existing + addedLen) :
    (forkPass target 0 existing (w :: rest) addedLen).2 ≠ [] := by
  have hw : ¬ w.pending.length < 0 := Nat.not_lt_zero _
  simp [forkPass, hb, hw]

/-- `adjust_worker_count(target ≥ 1, min_pending = 0)` diverges on any
non-empty worker list whose frontiers are all empty. -/
theorem adjustLoop_diverges (target : Nat) (ht : 1 ≤ target) :
    ∀ (fuel : Nat) (ws : List (Worker State Action)),
    ws ≠ [] → (∀ w ∈ ws, w.pending = []) →
    adjustLoop target 0 fuel ws = none := by
  intro fuel
  induction fuel with
  | zero => intro ws _ _; rfl
  | succ fuel ih =>
    intro ws hne hall
    simp only [adjustLoop]
    have hex : (ws.filter fun w => !w.pending.isEmpty).length = 0 := by
      rw [List.length_eq_zero, List.filter_eq_nil_iff]
      intro w hw
      simp [hall w hw]
    rw [hex]
    cases ws with
    | nil => exact absurd rfl hne
    | cons w rest =>
      have hb : ¬ target ≤ 0 + 0 := by omega
      have hfork := forkPass_head_fork target 0 w rest 0 hb
      have hemp := forkPass_empty_all target 0 (w :: rest) 0 hall
      rw [if_neg (by simpa using hfork)]
      apply ih
      · intro hcontra
        exact hfork (List.append_eq_nil.mp hcontra).2
      · intro u hu
        rcases List.mem_append.mp hu with hu | hu
        · exact hemp.1 u hu
        · exact hemp.2 u hu

theorem dedup_length_le_of_subset {l l' : List Nat} (h : ∀ x ∈ l, x ∈ l') :
    l.dedup.length ≤ l'.dedup.length := by
  rw [← List.card_toFinset, ← List.card_toFinset]
  apply Finset.card_le_card
  intro x hx
  rw [List.mem_toFinset] at hx ⊢
  exact h x hx

/-- Characterization of `Worker::init`: `sources` holds exactly the
initial-state fingerprints, all mapped to `none`; the frontier carries the
initial states deduplicated by fingerprint; the frontier-subset invariant
holds. -/
theorem workerInit_spec (fp : State → Nat) (sm : SM State Action)
    (inv : SM State Action → State → Bool) :
    (∀ k, k ∈ mapKeys (Worker.init fp sm inv).sources ↔ k ∈ sm.init_states.map fp) ∧
    (∀ e ∈ (Worker.init fp sm inv).sources, e.2 = none) ∧
    (mapKeys (Worker.init fp sm inv).sources).Nodup ∧
    ((Worker.init fp sm inv).pending.map fp).Nodup ∧
    (∀ t ∈ (Worker.init fp sm inv).pending, t ∈ sm.init_states) ∧
    frontierSub fp (Worker.init fp sm inv) := by
  obtain ⟨pushed, entries, h1, h2, h3, h4, h5, h6, h7⟩ :=
    seedFold_spec fp sm.init_states [] []
  have hp : (Worker.init fp sm inv).pending = pushed := by
    simp [Worker.init, h1]
  have hs : (Worker.init fp sm inv).sources = entries := by
    simp [Worker.init, h1]
  refine ⟨?_, ?_, ?_, ?_, ?_, ?_⟩
  · intro k
    rw [hs, h2]
    constructor
    · intro hk
      obtain ⟨t, ht, rfl⟩ := List.mem_map.mp hk
      exact List.mem_map_of_mem fp (h7 t ht)
    · intro hk
      obtain ⟨t, ht, rfl⟩ := List.mem_map.mp hk
      have := h6 t ht
      simpa [h2] using this
  · rw [hs]; exact h3
  · rw [hs, h2]; exact h5
  · rw [hp]; exact h5
  · rw [hp]; exact h7
  · intro t ht
    rw [hp] at ht
    rw [hs, h2]
    exact List.mem_map_of_mem fp ht

theorem buildDigests_succ (sources : Sources) (fuel d : Nat) (acc : List Nat) :
    buildDigests sources (fuel + 1) d acc =
      (match alookup sources d with
       | none => some acc
       | some none => some (d :: acc)
       | some (some prev) => buildDigests sources fuel prev (d :: acc)) := rfl

theorem findInitState_nil_stack (fp : State → Nat) (cands : List State) :
    findInitState fp cands [] = none := by
  cases cands <;> rfl

theorem consolidate_pass_iff (rs : List (CheckResult State)) :
    consolidate rs = .Pass ↔ ∀ r ∈ rs, r = .Pass := by
  rw [← allPassed_iff]
  unfold consolidate
  by_cases hall : allPassed rs = true
  · simp [hall]
  · rw [if_neg hall]
    cases hff : firstFail rs <;> simp [hall]

theorem consolidate_fail_iff (rs : List (CheckResult State)) (s : State) :
    consolidate rs = .Fail s ↔
      ∃ pre post, rs = pre ++ .Fail s :: post ∧ ∀ t, CheckResult.Fail t ∉ pre := by
  rw [← firstFail_some_iff]
  unfold consolidate
  by_cases hall : allPassed rs = true
  · rw [if_pos hall]
    constructor
    · intro h; simp at h
    · intro h
      have hmem : CheckResult.Fail s ∈ rs := by
        obtain ⟨pre, post, heq, -⟩ := (firstFail_some_iff rs s).mp h
        rw [heq]; simp
      have := (allPassed_iff rs).mp hall _ hmem
      simp at this
  · rw [if_neg hall]
    cases hff : firstFail rs with
    | none => simp
    | some u => simp

theorem consolidate_incomplete_iff (rs : List (CheckResult State)) :
    consolidate rs = .Incomplete ↔
      (∃ r ∈ rs, r ≠ .Pass) ∧ ∀ s, CheckResult.Fail s ∉ rs := by
  unfold consolidate
  by_cases hall : allPassed rs = true
  · rw [if_pos hall]
    constructor
    · intro h; simp at h
    · rintro ⟨⟨r, hr, hne⟩, -⟩
      exact absurd ((allPassed_iff rs).mp hall r hr) hne
  · rw [if_neg hall]
    cases hff : firstFail rs with
    | none =>
      constructor
      · intro _
        refine ⟨?_, (firstFail_none_iff rs).mp hff⟩
        by_contra hcon
        push_neg at hcon
        exact hall ((allPassed_iff rs).mpr hcon)
      · intro _; rfl
    | some u =>
      constructor
      · intro h; simp at h
      · rintro ⟨-, hno⟩
        have := (firstFail_none_iff rs).mpr hno
        rw [hff] at this
        cases this

theorem checker_check_proj (fp : State → Nat) (c : Checker State Action)
    (m : Nat) :
    (Checker.check fp c m).1 =
      consolidate (c.workers.map fun w => (Worker.check fp w m).1) ∧
    (Checker.check fp c m).2.workers =
      c.workers.map fun w => (Worker.check fp w m).2.1 := by
  constructor <;> simp [Checker.check, List.map_map, Function.comp_def]

/-- C1: evaluation at the failing input.  On a machine with two initial
states the checker reports `Fail (5,5)` — and the invariant is indeed false
there — but `path_to (5,5)` panics (modelled `none`) instead of returning
the path claimed, because `path_to` pops one digest from the stack per
candidate initial state (the pop sits inside the `find` closure), so the
singleton digest stack is consumed by candidate `(0,0)` and the pop for
candidate `(5,5)` hits an empty stack. -/
theorem C1_fail_path_panics :
    (Checker.check pairFP (Checker.new pairFP TwoInit notFiveFive) 100).1 =
      .Fail (5, 5) ∧
    notFiveFive TwoInit (5, 5) = false ∧
    Checker.path_to pairFP
      (Checker.check pairFP (Checker.new pairFP TwoInit notFiveFive) 100).2
      (5, 5) = none := by
  decide

/-- C2 counterexample: with `max_count = 0` the `usize` budget wraps
around, and on a non-empty frontier `check(0)` pops a state anyway — the
pop count is 1, not at most 0. -/
theorem C2_counterexample :
    ¬ (Worker.check pairFP
        (Worker.init pairFP LinearEquation (linEqInvariant 0 0 0)) 0).2.2 ≤ 0 := by
  decide

/-- C2 (amended): for every worker and every `max_count ≥ 1`,
`Worker::check(max_count)` pops — and evaluates the invariant on — at most
`max_count` states; states generated but not popped do not count. -/
theorem C2_budget_bounds_pops (fp : State → Nat) (w : Worker State Action)
    (maxCount : Nat) (h : 1 ≤ maxCount) :
    (Worker.check fp w maxCount).2.2 ≤ maxCount := by
  have hb : effBudget maxCount = maxCount := by
    unfold effBudget
    rw [if_neg (by omega)]
  have := checkLoop_pops_le fp w.machine w.invariant (effBudget maxCount)
    w.pending w.sources
  rw [hb] at this
  simpa [Worker.check, hb] using this

/-- C2 witness. -/
theorem C2_witness :
    (Worker.check pairFP
      (Worker.init pairFP LinearEquation (linEqInvariant 0 0 0)) 100).2.2 ≤ 100 :=
  C2_budget_bounds_pops pairFP
    (Worker.init pairFP LinearEquation (linEqInvariant 0 0 0)) 100 (by decide)

/-- C3 counterexample: on the self-loop machine the pop that exhausts
budget 1 also empties the frontier, yet the result is `Incomplete`, not
`Pass`. -/
theorem C3_counterexample :
    (Worker.check natFP (Worker.init natFP SelfLoop trueInv) 1).1 =
      .Incomplete ∧
    (Worker.check natFP (Worker.init natFP SelfLoop trueInv) 1).2.1.pending = [] := by
  decide

/-- C3 (amended): `Pass` is returned only when a pop finds the frontier
already empty, which happens strictly before the budget is consumed;
`Incomplete` is returned exactly when the full effective budget was
consumed, regardless of whether the frontier is empty afterwards.  In
particular a pass whose last budgeted pop empties the frontier returns
`Incomplete`, and only the following pass returns `Pass`. -/
theorem C3_incomplete_budget (fp : State → Nat) (w : Worker State Action)
    (m : Nat) :
    ((Worker.check fp w m).1 = .Pass →
      (Worker.check fp w m).2.1.pending = [] ∧
      (Worker.check fp w m).2.2 < effBudget m) ∧
    ((Worker.check fp w m).1 = .Incomplete →
      (Worker.check fp w m).2.2 = effBudget m) ∧
    ((Worker.check natFP (Worker.init natFP SelfLoop trueInv) 1).1 =
        .Incomplete ∧
      (Worker.check natFP
        (Worker.check natFP (Worker.init natFP SelfLoop trueInv) 1).2.1 1).1 =
        .Pass) := by
  refine ⟨?_, ?_, by decide⟩
  · intro h
    have := checkLoop_pass_spec fp w.machine w.invariant (effBudget m)
      w.pending w.sources (by simpa [Worker.check] using h)
    simpa [Worker.check] using this
  · intro h
    have := checkLoop_incomplete_pops fp w.machine w.invariant (effBudget m)
      w.pending w.sources (by simpa [Worker.check] using h)
    simpa [Worker.check] using this

/-- C3 witness. -/
theorem C3_witness :
    (Worker.check natFP (Worker.init natFP SelfLoop trueInv) 1).2.2 =
      effBudget 1 :=
  (C3_incomplete_budget natFP (Worker.init natFP SelfLoop trueInv) 1).2.1
    (by decide)

/-- C4: consolidation of `Checker::check`: `Pass` iff every worker's pass
returned `Pass`; otherwise `Fail` with the state of the first failing
worker in worker order; otherwise (some non-`Pass`, no `Fail`)
`Incomplete`. -/
theorem C4_consolidation (fp : State → Nat) (c : Checker State Action)
    (m : Nat) :
    ((Checker.check fp c m).1 = .Pass ↔
      ∀ r ∈ c.workers.map fun w => (Worker.check fp w m).1, r = .Pass) ∧
    (∀ s, (Checker.check fp c m).1 = .Fail s ↔
      ∃ pre post,
        (c.workers.map fun w => (Worker.check fp w m).1) =
          pre ++ .Fail s :: post ∧
        ∀ t, CheckResult.Fail t ∉ pre) ∧
    ((Checker.check fp c m).1 = .Incomplete ↔
      (∃ r ∈ c.workers.map fun w => (Worker.check fp w m).1, r ≠ .Pass) ∧
      ∀ s, CheckResult.Fail s ∉ c.workers.map fun w => (Worker.check fp w m).1) := by
  rw [(checker_check_proj fp c m).1]
  exact ⟨consolidate_pass_iff _, fun s => consolidate_fail_iff _ s,
    consolidate_incomplete_iff _⟩

/-- C4 witness. -/
theorem C4_witness :
    (Checker.check pairFP
      (Checker.new pairFP LinearEquation (linEqInvariant 0 0 0)) 100).1 =
      .Fail (0, 0) :=
  ((C4_consolidation pairFP
      (Checker.new pairFP LinearEquation (linEqInvariant 0 0 0)) 100).2.1
      (0, 0)).mpr
    ⟨[], [], by decide, by simp⟩

/-- C5: data-model invariants of a worker.  (a) `init` seeds `sources`
with exactly the initial-state fingerprints mapped to `none` and the
frontier with the initial states deduplicated by fingerprint; (b) in an
expansion step a successor is pushed iff its fingerprint was vacant at push
time (fresh against both the prior map and the successors pushed before
it), and afterwards every successor fingerprint is a key; (c) checking and
(d) forking preserve the frontier-subset invariant. -/
theorem C5_worker_invariants (fp : State → Nat) (sm : SM State Action)
    (inv : SM State Action → State → Bool) (w : Worker State Action)
    (s : State) (pending : List State) (src : Sources) (m : Nat) :
    ((∀ k, k ∈ mapKeys (Worker.init fp sm inv).sources ↔
        k ∈ sm.init_states.map fp) ∧
     (∀ e ∈ (Worker.init fp sm inv).sources, e.2 = none) ∧
     (mapKeys (Worker.init fp sm inv).sources).Nodup ∧
     ((Worker.init fp sm inv).pending.map fp).Nodup ∧
     (∀ t ∈ (Worker.init fp sm inv).pending, t ∈ sm.init_states) ∧
     frontierSub fp (Worker.init fp sm inv)) ∧
    (∃ pushed,
      (expandStep fp sm s pending src).1 = pending ++ pushed ∧
      mapKeys (expandStep fp sm s pending src).2 =
        mapKeys src ++ pushed.map fp ∧
      (∀ t ∈ pushed, fp t ∉ mapKeys src) ∧
      (pushed.map fp).Nodup ∧
      (∀ a ∈ sm.actions s, ∀ t, sm.next_state s a = some t →
        fp t ∈ mapKeys (expandStep fp sm s pending src).2)) ∧
    (frontierSub fp w → frontierSub fp (Worker.check fp w m).2.1) ∧
    (frontierSub fp w →
      frontierSub fp (Worker.fork w).1 ∧ frontierSub fp (Worker.fork w).2) := by
  refine ⟨workerInit_spec fp sm inv, ?_, ?_, ?_⟩
  · obtain ⟨pushed, entries, h1, h2, -, h4, h5, h6⟩ := expandStep_spec fp sm s pending src
    refine ⟨pushed, ?_, ?_, h4, h5, ?_⟩
    · rw [h1]
    · rw [h1, mapKeys_append, h2]
    · intro a ha t ht
      rw [h1]
      exact h6 a ha t ht
  · intro hw
    intro t ht
    have := checkLoop_frontier fp w.machine w.invariant (effBudget m)
      w.pending w.sources hw
    simp only [Worker.check] at ht ⊢
    exact this t ht
  · intro hw
    constructor
    · intro t ht
      simp only [Worker.fork] at ht ⊢
      exact hw t (List.take_subset _ _ ht)
    · intro t ht
      simp only [Worker.fork] at ht ⊢
      exact hw t (List.drop_subset _ _ ht)

/-- C5 witness. -/
theorem C5_witness :
    frontierSub pairFP
      (Worker.check pairFP
        (Worker.init pairFP LinearEquation (linEqInvariant 2 10 14)) 5).2.1 :=
  (C5_worker_invariants pairFP LinearEquation (linEqInvariant 2 10 14)
      (Worker.init pairFP LinearEquation (linEqInvariant 2 10 14))
      (0, 0) [] [] 5).2.2.1
    (by unfold frontierSub; decide)

/-- C6: when a pass fails on `s`, every successor of `s` has been recorded
in `sources` before the return, so a subsequent pass resumes past the
failure; concretely, on the always-false linear-equation machine five
successive `check(100)` calls fail on `(0,0)`, `(1,0)`, `(0,1)`, `(2,0)`,
`(1,1)` in BFS order. -/
theorem C6_resumable (fp : State → Nat) (w : Worker State Action) (m : Nat)
    (s : State) :
    ((Worker.check fp w m).1 = .Fail s →
      ∀ a ∈ w.machine.actions s, ∀ t, w.machine.next_state s a = some t →
        fp t ∈ mapKeys (Worker.check fp w m).2.1.sources) ∧
    ((Checker.check pairFP
        (Checker.new pairFP LinearEquation (linEqInvariant 0 0 0)) 100).1 =
        .Fail (0, 0) ∧
     (Checker.check pairFP
        (Checker.check pairFP
          (Checker.new pairFP LinearEquation (linEqInvariant 0 0 0)) 100).2
        100).1 = .Fail (1, 0) ∧
     (Checker.check pairFP
        (Checker.check pairFP
          (Checker.check pairFP
            (Checker.new pairFP LinearEquation (linEqInvariant 0 0 0)) 100).2
          100).2 100).1 = .Fail (0, 1) ∧
     (Checker.check pairFP
        (Checker.check pairFP
          (Checker.check pairFP
            (Checker.check pairFP
              (Checker.new pairFP LinearEquation (linEqInvariant 0 0 0)) 100).2
            100).2 100).2 100).1 = .Fail (2, 0) ∧
     (Checker.check pairFP
        (Checker.check pairFP
          (Checker.check pairFP
            (Checker.check pairFP
              (Checker.check pairFP
                (Checker.new pairFP LinearEquation (linEqInvariant 0 0 0))
                100).2 100).2 100).2 100).2 100).1 = .Fail (1, 1)) := by
  refine ⟨?_, by decide⟩
  intro h a ha t ht
  have := checkLoop_fail_successors fp w.machine w.invariant (effBudget m)
    w.pending w.sources s (by simpa [Worker.check] using h) a ha t ht
  simpa [Worker.check] using this

/-- C6 witness. -/
theorem C6_witness :
    pairFP (1, 0) ∈ mapKeys (Worker.check pairFP
      (Worker.init pairFP LinearEquation (linEqInvariant 0 0 0)) 100).2.1.sources :=
  (C6_resumable pairFP
      (Worker.init pairFP LinearEquation (linEqInvariant 0 0 0)) 100 (0, 0)).1
    (by decide) Guess.IncreaseX (by decide) (1, 0) (by decide)

/-- C7: on the linear-equation machine with `a=2, b=10, c=14`, a
single-worker `check(100000)` returns `Fail (2,1)` and `path_to (2,1)`
returns exactly the three-step path
`[((0,0),IncX), ((1,0),IncX), ((2,0),IncY)]`. -/
theorem C7_concrete_path :
    (Checker.check pairFP
      (Checker.new pairFP LinearEquation (linEqInvariant 2 10 14)) 100000).1 =
      .Fail (2, 1) ∧
    Checker.path_to pairFP
      (Checker.check pairFP
        (Checker.new pairFP LinearEquation (linEqInvariant 2 10 14)) 100000).2
      (2, 1) =
      some [((0, 0), .IncreaseX), ((1, 0), .IncreaseX), ((2, 0), .IncreaseY)] := by
  decide

/-- C8 counterexample: (i) a worker whose frontier size equals
`min_pending` (here 2) is forked, refuting "forks only workers whose
frontier size exceeds `min_pending`" (the code's guard is
`pending.len() < min_pending → skip`, so equality forks); (ii) with
`min_pending = 0`, a target of 2 and a single worker with an empty
frontier, the loop never terminates — it forks empty workers forever. -/
theorem C8_counterexample :
    ((adjustLoop 2 2 10 [twoPendingWorker]).map fun ws =>
      ws.map fun w => w.pending) = some [[0], [1]] ∧
    ∀ fuel, adjustLoop 2 0 fuel [emptyPendingWorker] = none := by
  refine ⟨by decide, ?_⟩
  intro fuel
  apply adjustLoop_diverges 2 (by decide) fuel
  · simp
  · intro w hw
    simp at hw
    rw [hw]
    rfl

/-- C8 (amended): `adjust_worker_count` (i) returns the workers unchanged
when the non-empty-frontier count already meets the target, (ii) forks no
worker when every frontier is strictly below `min_pending` (the eligibility
threshold is `pending.len() ≥ min_pending`, not strict excess), (iii) keeps
each existing worker position occupied, in order, by a worker with the same
machine and sources and a prefix of its original frontier, appending all
new workers after them, and (iv) terminates for every target whenever
`min_pending ≥ 2` (fuel `phiPot + 1` suffices); termination for
`min_pending ≤ 1` fails in general. -/
theorem C8_adjust_spec (target minPending fuel : Nat)
    (ws ws' : List (Worker State Action)) :
    (target ≤ (ws.filter fun w => !w.pending.isEmpty).length →
      adjustLoop target minPending (fuel + 1) ws = some ws) ∧
    ((∀ w ∈ ws, w.pending.length < minPending) →
      adjustLoop target minPending (fuel + 1) ws = some ws) ∧
    (adjustLoop target minPending fuel ws = some ws' →
      ws.length ≤ ws'.length ∧
      List.Forall₂ derivedFrom (ws'.take ws.length) ws) ∧
    (2 ≤ minPending →
      (adjustLoop target minPending (phiPot minPending ws + 1) ws).isSome = true) := by
  refine ⟨?_, ?_, adjustLoop_derived target minPending fuel ws ws',
    fun h => adjustLoop_of_phi target minPending h (phiPot minPending ws) ws le_rfl⟩
  · intro h
    simp only [adjustLoop]
    rw [forkPass_break _ _ _ _ _ (by simpa using h)]
    simp
  · intro h
    simp only [adjustLoop]
    rw [forkPass_no_eligible _ _ _ _ _ h]
    simp

/-- C8 witness. -/
theorem C8_witness :
    (adjustLoop 2 2 (phiPot 2 [twoPendingWorker] + 1)
      [twoPendingWorker]).isSome = true :=
  (C8_adjust_spec 2 2 0 [twoPendingWorker] []).2.2.2 (by decide)

/-- C9: `sources()` is monotone across a `check` call: no key is removed
from any worker's predecessor map, so the union's key set only grows and
its entry count is nondecreasing. -/
theorem C9_sources_monotone (fp : State → Nat) (c : Checker State Action)
    (m : Nat) :
    (∀ k ∈ mapKeys (Checker.sources c),
      k ∈ mapKeys (Checker.sources (Checker.check fp c m).2)) ∧
    sourcesLen (Checker.sources c) ≤
      sourcesLen (Checker.sources (Checker.check fp c m).2) := by
  have hsub : ∀ k ∈ mapKeys (Checker.sources c),
      k ∈ mapKeys (Checker.sources (Checker.check fp c m).2) := by
    intro k hk
    obtain ⟨w, hw, hkw⟩ := (checker_sources_mem c k).mp hk
    refine (checker_sources_mem _ k).mpr
      ⟨(Worker.check fp w m).2.1, ?_, ?_⟩
    · rw [(checker_check_proj fp c m).2]
      exact List.mem_map_of_mem _ hw
    · obtain ⟨ext, hext⟩ := checkLoop_sources_extend fp w.machine w.invariant
        (effBudget m) w.pending w.sources
      have heq : (Worker.check fp w m).2.1.sources = w.sources ++ ext := by
        simpa [Worker.check] using hext
      rw [heq, mapKeys_append]
      exact List.mem_append.mpr (Or.inl hkw)
  exact ⟨hsub, dedup_length_le_of_subset hsub⟩

/-- C9 witness. -/
theorem C9_witness :
    pairFP (0, 0) ∈ mapKeys (Checker.sources
      (Checker.check pairFP
        (Checker.new pairFP LinearEquation (linEqInvariant 2 10 14)) 5).2) :=
  (C9_sources_monotone pairFP
      (Checker.new pairFP LinearEquation (linEqInvariant 2 10 14)) 5).1
    (pairFP (0, 0)) (by decide)

/-- C10: `path_to` called on a state whose fingerprint was never recorded
in the unioned `sources` panics (modelled as `none`): the digest stack
stays empty, so the initial-state `pop().unwrap()` fails rather than
returning an empty or partial path. -/
theorem C10_path_to_unrecorded (fp : State → Nat) (c : Checker State Action)
    (s : State) (h : alookup (Checker.sources c) (fp s) = none) :
    Checker.path_to fp c s = none := by
  obtain ⟨ws⟩ := c
  cases ws with
  | nil => rfl
  | cons w0 rest =>
    simp only [Checker.path_to]
    rw [buildDigests_succ, h]
    simp [findInitState_nil_stack]

/-- C10 witness. -/
theorem C10_witness :
    Checker.path_to pairFP
      (Checker.new pairFP LinearEquation (linEqInvariant 2 10 14)) (9, 9) =
      none :=
  C10_path_to_unrecorded pairFP
    (Checker.new pairFP LinearEquation (linEqInvariant 2 10 14)) (9, 9)
    (by decide)

end Stateright
